import Mathlib

/-!
Verification of the Story-Retell scoring engine (`src/lib/scoring.ts`) and of
the timer and duration logic of `src/components/story-retell-app.tsx`.

Modelling conventions: a JS string is a `List Char`; JS number arithmetic on
scores is modelled with exact rationals, and the two division-by-zero corner
cases the source can actually hit are modelled explicitly with IEEE semantics
(`0/0 = NaN`, `x/0 = Infinity` for `x > 0`). `Math.round` on the nonnegative
values produced here is half-up rounding.
-/

namespace StoryRetell

/-- A JS string, modelled as its list of characters. -/
abbrev Str := List Char

/-- Character list of a Lean string literal. -/
def str (s : String) : Str := s.data

/-- The `STOPWORDS` set of `scoring.ts` (its complete contents, in order). -/
def STOPWORDS : List Str :=
  [str "a", str "an", str "the",
   str "and", str "or", str "but", str "if", str "then", str "than", str "that",
   str "this", str "those", str "these", str "there",
   str "is", str "are", str "was", str "were", str "be", str "been", str "being",
   str "am", str "do", str "does", str "did", str "done", str "doing",
   str "have", str "has", str "had", str "will", str "would", str "shall",
   str "should", str "can", str "could", str "may", str "might", str "must",
   str "for", str "to", str "of", str "in", str "on", str "at", str "by",
   str "with", str "as", str "from", str "into", str "out", str "about",
   str "over", str "after",
   str "it", str "its", str "it's", str "he", str "she", str "they", str "we",
   str "you", str "i", str "me", str "him", str "her", str "them", str "us",
   str "my", str "your", str "our", str "their", str "his", str "hers",
   str "ours", str "theirs",
   str "so", str "very", str "just", str "also", str "too", str "much",
   str "many", str "more", str "most", str "some", str "any", str "all",
   str "few", str "several", str "such", str "up", str "down", str "before",
   str "again", str "once", str "when", str "while", str "where", str "why",
   str "how",
   str "got", str "get", str "getting", str "go", str "going", str "went",
   str "come", str "came", str "coming"]

/-- Membership test for the `[a-z0-9]` character class. -/
def isKeepChar (c : Char) : Bool :=
  decide ((97 ≤ c.toNat ∧ c.toNat ≤ 122) ∨ (48 ≤ c.toNat ∧ c.toNat ≤ 57))

/-- Per-character effect of `normalize`'s pre-tokenization:
`.toLowerCase().replace(/[^a-z0-9\s]/g, " ")` followed by `.split(/\s+/)`
keeps a character (lowercased) exactly when its lowercase form lies in
`[a-z0-9]`, and treats every other character as a token separator. -/
def classifyChar (c : Char) : Option Char :=
  let lc := c.toLower
  if isKeepChar lc then some lc else none

/-- Tokenizer worker; `acc` is the current token, reversed. Only nonempty
tokens are emitted, which is the `.filter(Boolean)` of the source. -/
def tokenizeAux : Str → Str → List Str
  | [], acc => if acc = [] then [] else [acc.reverse]
  | c :: cs, acc =>
    match classifyChar c with
    | some lc => tokenizeAux cs (lc :: acc)
    | none => if acc = [] then tokenizeAux cs [] else acc.reverse :: tokenizeAux cs []

/-- Lowercased `[a-z0-9]` tokens of a text, in order. -/
def tokenize (s : Str) : List Str := tokenizeAux s []

/-- JS `String.prototype.toLowerCase`, per character. -/
def toLowerStr (s : Str) : Str := s.map Char.toLower

/-- The `irregulars` lookup table of `stem`, with all of its entries in
source order — including the entry with the empty-string key. -/
def irregularsTable : List (Str × Str) :=
  [(str "children", str "child"), (str "people", str "person"),
   (str "men", str "man"), (str "women", str "woman"),
   (str "feet", str "foot"), (str "teeth", str "tooth"),
   (str "mice", str "mouse"), (str "geese", str "goose"),
   (str "went", str "go"), (str "came", str "come"),
   (str "saw", str "see"), (str "got", str "get"),
   (str "took", str "take"), (str "made", str "make"),
   (str "said", str "say"), (str "told", str "tell"), (str "gave", str "give"),
   (str "found", str "find"), (str "bought", str "buy"),
   (str "brought", str "bring"), (str "thought", str "think"),
   (str "rode", str "ride"), (str "", str "ride"),
   (str "riding", str "ride"), (str "rides", str "ride"),
   (str "decided", str "decide"), (str "decides", str "decide"),
   (str "deciding", str "decide"),
   (str "loved", str "love"), (str "loves", str "love"),
   (str "loving", str "love"),
   (str "trained", str "train"), (str "trains", str "train"),
   (str "training", str "train"),
   (str "competed", str "compete"), (str "competes", str "compete"),
   (str "competing", str "compete"),
   (str "beaten", str "beat"), (str "beats", str "beat"),
   (str "beating", str "beat"),
   (str "raced", str "race"), (str "races", str "race"),
   (str "racing", str "race")]

/-- One `stemmed.replace(/(suf)$/, rep)` step: replace the suffix if present,
otherwise leave the word unchanged. -/
def replaceSuffix (w suf rep : Str) : Str :=
  if suf <:+ w then w.take (w.length - suf.length) ++ rep else w

/-- The five suffix `replace` steps of `stem`, applied in sequence — each one
rewrites the result of the previous one whenever its own suffix matches. The
branches of the final alternation `(ly|ness|ment|s)$` are tried in the order
in which only one of them can match the end of the word (the sole overlap,
a word ending in "ness", is resolved to "ness" both by the regex's
leftmost-match rule and by this ordering). -/
def stemSuffixRules (w : Str) : Str :=
  let s1 := replaceSuffix w (str "ies") (str "y")
  let s2 := replaceSuffix s1 (str "ied") (str "y")
  let s3 := replaceSuffix s2 (str "ing") []
  let s4 := replaceSuffix s3 (str "ed") []
  if str "ly" <:+ s4 then replaceSuffix s4 (str "ly") []
  else if str "ness" <:+ s4 then replaceSuffix s4 (str "ness") []
  else if str "ment" <:+ s4 then replaceSuffix s4 (str "ment") []
  else replaceSuffix s4 (str "s") []

/-- `stem` of `scoring.ts`: lowercase, consult the irregular table, otherwise
run the suffix-stripping `replace` chain. -/
def stem (token : Str) : Str :=
  let stemmed := toLowerStr token
  match irregularsTable.lookup stemmed with
  | some v => v
  | none => stemSuffixRules stemmed

/-- `normalize` of `scoring.ts`: tokenize (lowercase, strip non-`[a-z0-9]`,
split), stem each token, and drop tokens that are empty or stopwords. -/
def normalize (text : Str) : List Str :=
  ((tokenize text).map stem).filter
    (fun t => !t.isEmpty && !(decide (t ∈ STOPWORDS)))

/-- JS `new Set(xs)` materialized as a list: first occurrences, in insertion
order. -/
def jsSetList : List Str → List Str
  | [] => []
  | x :: xs => x :: (jsSetList xs).filter (fun y => !(decide (y = x)))

/-- The per-occurrence weight `positionWeight * lengthWeight` that
`extractKeywords` adds to a token's accumulated frequency (`n` is the token
count of the text, `idx` the occurrence's position). -/
def kwWeight (n idx : Nat) (t : Str) : ℚ :=
  let positionWeight := max (1/2) (1 - (idx : ℚ) / (n : ℚ))
  let lengthWeight := min 2 ((t.length : ℚ) / 5)
  positionWeight * lengthWeight

/-- JS `Map.set(t, get(t) + w)` on an insertion-ordered association list. -/
def mapBump (m : List (Str × ℚ)) (t : Str) (w : ℚ) : List (Str × ℚ) :=
  if m.any (fun p => decide (p.1 = t)) then
    m.map (fun p => if p.1 = t then (p.1, p.2 + w) else p)
  else m ++ [(t, w)]

/-- The weighted-frequency map of `extractKeywords`, in insertion order. -/
def buildFreq (tokens : List Str) : List (Str × ℚ) :=
  tokens.enum.foldl (fun m p => mapBump m p.2 (kwWeight tokens.length p.1 p.2)) []

/-- JS UTF-16 string comparison `a < b` (lexicographic, prefix-first). -/
def lexLT : Str → Str → Bool
  | [], [] => false
  | [], _ :: _ => true
  | _ :: _, [] => false
  | a :: as, b :: bs => if a < b then true else if b < a then false else lexLT as bs

/-- The sort comparator of `extractKeywords` as a `le` test: `kwLE a b` holds
when the JS comparator returns a nonpositive value on `(a, b)` — frequency
descending when the difference exceeds the `0.1` epsilon, then length
descending, then lexicographic ascending. -/
def kwLE (a b : Str × ℚ) : Bool :=
  if 1/10 < |b.2 - a.2| then decide (b.2 ≤ a.2)
  else if a.1.length ≠ b.1.length then decide (b.1.length ≤ a.1.length)
  else lexLT a.1 b.1

/-- Sorted insertion of one element. -/
def insertLE {α : Type} (le : α → α → Bool) (x : α) : List α → List α
  | [] => [x]
  | y :: ys => if le x y then x :: y :: ys else y :: insertLE le x ys

/-- Deterministic comparison sort used for the JS `Array.prototype.sort`
calls of the source. -/
def sortByLE {α : Type} (le : α → α → Bool) : List α → List α
  | [] => []
  | x :: xs => insertLE le x (sortByLE le xs)

/-- `extractKeywords` of `scoring.ts`: weighted token frequencies, sorted by
the comparator above, truncated to `mx` entries. -/
def extractKeywords (text : Str) (mx : Nat) : List Str :=
  let tokens := normalize text
  let freq := buildFreq tokens
  let sorted := (sortByLE kwLE freq).map (fun p => p.1)
  sorted.take mx

/-- JS default `Array.prototype.sort()` on strings (ascending UTF-16 order),
used on the reported keyword lists. -/
def sortStrs (l : List Str) : List Str := sortByLE (fun a b => !lexLT b a) l

/-- `new Set(extractKeywords(story, 20))` of `computeMatchScore`. -/
def storyKeywordsOf (story : Str) : List Str := jsSetList (extractKeywords story 20)

/-- `new Set(normalize(transcript))`, the transcript token set. -/
def userTokensOf (transcript : Str) : List Str := jsSetList (normalize transcript)

/-- The generic variant's substring test for one keyword:
`[...userTokens].some(token => token.includes(keyword) || keyword.includes(token))`. -/
def hasSubstringGeneric (uts : List Str) (k : Str) : Bool :=
  uts.any (fun token => decide (k <:+: token) || decide (token <:+: k))

/-- The `matched` list of `computeMatchScore`, in keyword-set order. -/
def matchedGeneric (story tr : Str) : List Str :=
  (storyKeywordsOf story).filter (fun k => decide (k ∈ userTokensOf tr))

/-- The `partialMatches` list of `computeMatchScore`: keywords that are not in
the transcript token set but are in a mutual-substring relation with some
transcript token. -/
def partialGeneric (story tr : Str) : List Str :=
  (storyKeywordsOf story).filter
    (fun k => !(decide (k ∈ userTokensOf tr)) && hasSubstringGeneric (userTokensOf tr) k)

/-- The `missing` list of `computeMatchScore`. -/
def missingGeneric (story tr : Str) : List Str :=
  (storyKeywordsOf story).filter
    (fun k => !(decide (k ∈ userTokensOf tr)) && !(decide (k ∈ partialGeneric story tr)))

/-- `exactMatchScore` of `computeMatchScore` (0 when the keyword set is
empty). -/
def exactMatchScoreG (story tr : Str) : ℚ :=
  if (storyKeywordsOf story).length = 0 then 0
  else ((matchedGeneric story tr).length : ℚ) / ((storyKeywordsOf story).length : ℚ)

/-- `partialMatchScore` of `computeMatchScore`. -/
def partialMatchScoreG (story tr : Str) : ℚ :=
  if (storyKeywordsOf story).length = 0 then 0
  else (((partialGeneric story tr).length : ℚ) / ((storyKeywordsOf story).length : ℚ)) * (1/2)

/-- `storyMeaningfulWords`: the story's normalized tokens filtered against the
stopword set once more (normalize already removed stopwords, and the source
repeats the filter). Shared verbatim by both scoring functions. -/
def storyMeaningfulWords (story : Str) : List Str :=
  (normalize story).filter (fun t => !(decide (t ∈ STOPWORDS)))

/-- `userMeaningfulWords`, same construction on the transcript. -/
def userMeaningfulWords (tr : Str) : List Str :=
  (normalize tr).filter (fun t => !(decide (t ∈ STOPWORDS)))

/-- `storyContentSet = new Set(storyMeaningfulWords)`. -/
def storyContentSet (story : Str) : List Str := jsSetList (storyMeaningfulWords story)

/-- `userContentSet = new Set(userMeaningfulWords)`. -/
def userContentSet (tr : Str) : List Str := jsSetList (userMeaningfulWords tr)

/-- `contentMatches`: how many story content words also occur in the
transcript's content-word set. -/
def contentMatchCount (story tr : Str) : Nat :=
  ((storyContentSet story).filter (fun w => decide (w ∈ userContentSet tr))).length

/-- `contentWordScore` (0 when the story content set is empty). -/
def contentWordScore (story tr : Str) : ℚ :=
  if (storyContentSet story).length = 0 then 0
  else (contentMatchCount story tr : ℚ) / ((storyContentSet story).length : ℚ)

/-- `Math.min(1, userMeaningfulWords.length / storyMeaningfulWords.length)`
under JS float semantics. When the story has no meaningful words the division
is by zero: `0/0` is NaN (`none`; every comparison with NaN is false) and
`x/0` for `x > 0` is Infinity, so `Math.min(1, x/0) = 1`. -/
def lengthRatio (story tr : Str) : Option ℚ :=
  let a := (userMeaningfulWords tr).length
  let b := (storyMeaningfulWords story).length
  if b = 0 then (if a = 0 then none else some 1)
  else some (min 1 ((a : ℚ) / (b : ℚ)))

/-- `lengthBonus = lengthRatio > 0.5 ? (lengthRatio - 0.5) * 0.2 : 0` (the
NaN case takes the `: 0` branch). -/
def lengthBonus (story tr : Str) : ℚ :=
  match lengthRatio story tr with
  | none => 0
  | some r => if 1/2 < r then (r - 1/2) * (1/5) else 0

/-- The "Versant-friendly curve" both scoring functions apply to the base
score: above 0.4 rescale by 1.3 from 0.4, else above 0.2 rescale by 1.2 from
0.2, else unchanged. Both comparisons are strict. -/
def friendlyCurve (b : ℚ) : ℚ :=
  if 2/5 < b then 2/5 + (b - 2/5) * (13/10)
  else if 1/5 < b then 1/5 + (b - 1/5) * (6/5)
  else b

/-- JS `Math.round` for the nonnegative values produced here: half-up. -/
def jsRound (q : ℚ) : ℤ := ⌊q + 1/2⌋

/-- `Math.round(Math.min(100, Math.max(0, finalScore * 100)))`. -/
def percentageOf (finalScore : ℚ) : ℤ := jsRound (min 100 (max 0 (finalScore * 100)))

/-- `baseScore` of `computeMatchScore`:
`exact*0.6 + partial*0.2 + content*0.2 + lengthBonus`. -/
def baseScoreG (story tr : Str) : ℚ :=
  exactMatchScoreG story tr * (3/5) + partialMatchScoreG story tr * (1/5)
    + contentWordScore story tr * (1/5) + lengthBonus story tr

/-- Result record of `computeMatchScore`, with the source's field names. -/
structure ScoreResult where
  percentage : ℤ
  matchedKeywords : List Str
  missingKeywords : List Str
  totalKeywords : Nat
  contentWords : Nat
  userContentWords : Nat
  contentMatches : Nat

/-- `computeMatchScore` of `scoring.ts`. -/
def computeMatchScore (story transcript : Str) : ScoreResult :=
  { percentage := percentageOf (friendlyCurve (baseScoreG story transcript))
    matchedKeywords := sortStrs (matchedGeneric story transcript)
    missingKeywords := sortStrs (missingGeneric story transcript)
    totalKeywords := (storyKeywordsOf story).length
    contentWords := (storyContentSet story).length
    userContentWords := (userContentSet transcript).length
    contentMatches := contentMatchCount story transcript }

/-- JS `\s` restricted to the whitespace characters that can occur here:
space, tab, line feed, vertical tab, form feed, carriage return. -/
def isWsChar (c : Char) : Bool :=
  c == ' ' || c == '\t' || c == '\n' || c == '\r' || c.toNat == 11 || c.toNat == 12

/-- JS `String.prototype.trim`: strip whitespace from both ends. -/
def trimStr (s : Str) : Str :=
  ((s.dropWhile isWsChar).reverse.dropWhile isWsChar).reverse

/-- The keyword list as `computeMatchScoreWithKeywords` prepares it:
`predefinedKeywords.map(k => k.toLowerCase().trim()).filter(Boolean)` —
duplicates are kept. -/
def processedKeywords (kws : List Str) : List Str :=
  (kws.map (fun k => trimStr (toLowerStr k))).filter (fun k => !k.isEmpty)

/-- The stemmed keyword array:
`originalKeywords.map(k => stem(k)).filter(Boolean)`. The `filter(Boolean)`
SHORTENS the array whenever a keyword stems to the empty string, so from that
point on `stemmedKeywords[i]` no longer lines up with `originalKeywords[i]`
and past its end the reads yield `undefined`. -/
def stemmedKeywordsOf (kws : List Str) : List Str :=
  ((processedKeywords kws).map stem).filter (fun s => !s.isEmpty)

/-- `userTokens.has(x)` where `x` may be `undefined` (an out-of-range array
read): a `Set` of strings never contains `undefined`. -/
def optMem (uts : List Str) : Option Str → Bool
  | some s => decide (s ∈ uts)
  | none => false

/-- `hasExactMatch` of the keyword loop:
`userTokens.has(originalKeyword.toLowerCase()) || userTokens.has(stemmedKeyword)`,
where `stemmedKeyword` is `stemmedKeywords[i]` and may be `undefined`. -/
def kwHasExactMatchA (uts : List Str) (k : Str) (sk : Option Str) : Bool :=
  decide (toLowerStr k ∈ uts) || optMem uts sk

/-- Body of the `hasSubstringMatch` callback for a defined `stemmedKeyword`:
some transcript token and the keyword (or its stemmed form) contain one
another. -/
def kwSubstringTest (uts : List Str) (k sk : Str) : Bool :=
  uts.any (fun token =>
    let tokenLower := toLowerStr token
    let keywordLower := toLowerStr k
    let stemmedLower := toLowerStr sk
    decide (keywordLower <:+: tokenLower) || decide (tokenLower <:+: keywordLower)
      || decide (stemmedLower <:+: tokenLower) || decide (tokenLower <:+: stemmedLower))

/-- The `hasSubstringMatch` computation including its failure mode: the
callback evaluates `stemmedKeyword.toLowerCase()` unconditionally, so when
`stemmedKeyword` is `undefined` and the transcript token set is non-empty,
the first callback call throws a TypeError (modelled as `none`); on an empty
token set `[...].some` never runs the callback and yields `false`. -/
def kwSubstringCheck (uts : List Str) (k : Str) (sk : Option Str) : Option Bool :=
  match sk with
  | some sk2 => some (kwSubstringTest uts k sk2)
  | none => if uts.isEmpty then some false else none

/-- Length of the common run of equal characters at the heads of two strings
(the inner `while` of the longest-common-substring scan). -/
def commonRunLen : Str → Str → Nat
  | c :: cs, d :: ds => if c = d then commonRunLen cs ds + 1 else 0
  | _, _ => 0

/-- Longest common contiguous substring length, as the double loop of the
source computes it: the best common run over all pairs of start offsets. -/
def lcsLen (a b : Str) : Nat :=
  (a.tails.map (fun ta => (b.tails.map (fun tb => commonRunLen ta tb)).foldr max 0)).foldr max 0

/-- `hasPartialMatch` of the keyword loop: at least 3 characters of
contiguous overlap between some transcript token and the original keyword
(this check never touches the stemmed array, so it cannot throw). -/
def kwHasOverlap3 (uts : List Str) (k : Str) : Bool :=
  uts.any (fun token => decide (3 ≤ lcsLen (toLowerStr token) (toLowerStr k)))

/-- The keyword `for` loop of `computeMatchScoreWithKeywords`, building
(`matched`, `partialMatches`) in loop order; `i` is the running index into
the (possibly shorter) stemmed keyword array, and `none` propagates the
TypeError described at `kwSubstringCheck`. -/
def classifyLoopAux (uts stemmeds : List Str) : List Str → Nat → Option (List Str × List Str)
  | [], _ => some ([], [])
  | k :: ks, i =>
    let sk := stemmeds[i]?
    if kwHasExactMatchA uts k sk then
      (classifyLoopAux uts stemmeds ks (i + 1)).map (fun mp => (k :: mp.1, mp.2))
    else if optMem uts sk then
      (classifyLoopAux uts stemmeds ks (i + 1)).map (fun mp => (k :: mp.1, mp.2))
    else
      match kwSubstringCheck uts k sk with
      | none => none
      | some true => (classifyLoopAux uts stemmeds ks (i + 1)).map (fun mp => (k :: mp.1, mp.2))
      | some false =>
        if kwHasOverlap3 uts k then
          (classifyLoopAux uts stemmeds ks (i + 1)).map (fun mp => (mp.1, k :: mp.2))
        else classifyLoopAux uts stemmeds ks (i + 1)

/-- One keyword\'s classification as "matched" under ALIGNED indices
(`stemmedKeyword = stem k`, which is the situation whenever no keyword stems
to the empty string): the source\'s cascade — the exact check, the redundant
stemmed re-check, then the substring check. -/
def kwMatchedK (uts : List Str) (k : Str) : Bool :=
  if kwHasExactMatchA uts k (some (stem k)) then true
  else if optMem uts (some (stem k)) then true
  else kwSubstringTest uts k (stem k)

/-- Aligned-index classification as "partial": reached only when every match
check failed, and the 3-character-overlap check succeeds. -/
def kwPartialOnlyK (uts : List Str) (k : Str) : Bool :=
  !kwMatchedK uts k && kwHasOverlap3 uts k

/-- The `matched` list under aligned indices (one entry per keyword
occurrence, in list order). -/
def matchedK (tr : Str) (kws : List Str) : List Str :=
  (processedKeywords kws).filter (kwMatchedK (userTokensOf tr))

/-- The `partialMatches` list under aligned indices. -/
def partialListK (tr : Str) (kws : List Str) : List Str :=
  (processedKeywords kws).filter (kwPartialOnlyK (userTokensOf tr))

/-- The `missing` list computed from given `matched` and `partialMatches`
lists: keywords on neither. -/
def missingOf (kws matched partialMs : List Str) : List Str :=
  (processedKeywords kws).filter
    (fun k => !(decide (k ∈ matched)) && !(decide (k ∈ partialMs)))

/-- `exactMatchScore` of the explicit-keyword variant. -/
def exactMatchScoreK (kws matched : List Str) : ℚ :=
  if (processedKeywords kws).length = 0 then 0
  else (matched.length : ℚ) / ((processedKeywords kws).length : ℚ)

/-- `partialMatchScore` of the explicit-keyword variant. -/
def partialMatchScoreK (kws partialMs : List Str) : ℚ :=
  if (processedKeywords kws).length = 0 then 0
  else ((partialMs.length : ℚ) / ((processedKeywords kws).length : ℚ)) * (1/2)

/-- `baseScore` of `computeMatchScoreWithKeywords`:
`exact*0.7 + partial*0.2 + content*0.1 + lengthBonus`. -/
def baseScoreK (story tr : Str) (kws matched partialMs : List Str) : ℚ :=
  exactMatchScoreK kws matched * (7/10) + partialMatchScoreK kws partialMs * (1/5)
    + contentWordScore story tr * (1/10) + lengthBonus story tr

/-- `accuracyRate` before rounding:
`(matched.length + partialMatches.length) / originalKeywords.length` (0 when
there are no keywords). -/
def accuracyRateK (kws matched partialMs : List Str) : ℚ :=
  if 0 < (processedKeywords kws).length then
    ((matched.length + partialMs.length : ℕ) : ℚ) / ((processedKeywords kws).length : ℚ)
  else 0

/-- Result record of `computeMatchScoreWithKeywords`, with the source\'s field
names. -/
structure ScoreResultK where
  percentage : ℤ
  matchedKeywords : List Str
  missingKeywords : List Str
  partialMatches : List Str
  totalKeywords : Nat
  contentWords : Nat
  userContentWords : Nat
  contentMatches : Nat
  accuracyRate : ℤ
  totalAttempted : Nat
  exactMatches : Nat
  partialMatchesCount : Nat

/-- The record `computeMatchScoreWithKeywords` returns, as a function of the
loop\'s `matched` and `partialMatches` lists. -/
def scoreResultKOf (story tr : Str) (kws matched partialMs : List Str) : ScoreResultK :=
  { percentage := percentageOf (friendlyCurve (baseScoreK story tr kws matched partialMs))
    matchedKeywords := sortStrs matched
    missingKeywords := sortStrs (missingOf kws matched partialMs)
    partialMatches := sortStrs partialMs
    totalKeywords := (processedKeywords kws).length
    contentWords := (storyContentSet story).length
    userContentWords := (userContentSet tr).length
    contentMatches := contentMatchCount story tr
    accuracyRate := jsRound (accuracyRateK kws matched partialMs * 100)
    totalAttempted := matched.length + partialMs.length
    exactMatches := matched.length
    partialMatchesCount := partialMs.length }

/-- `computeMatchScoreWithKeywords` of `scoring.ts`. `none` models the
TypeError the function throws when some keyword stems to the empty string,
the stemmed array misaligns past its end, and the substring callback reaches
`undefined.toLowerCase()` — e.g. story "x", transcript "dog", keywords
["s"]. -/
def computeMatchScoreWithKeywords (story transcript : Str) (predefinedKeywords : List Str) :
    Option ScoreResultK :=
  match classifyLoopAux (userTokensOf transcript) (stemmedKeywordsOf predefinedKeywords)
      (processedKeywords predefinedKeywords) 0 with
  | none => none
  | some mp => some (scoreResultKOf story transcript predefinedKeywords mp.1 mp.2)

/-- JS `text.split(/\s+/)`: the pieces between maximal whitespace runs,
including the empty piece a leading or trailing run produces. The `none`
accumulator state means the scan stands inside a whitespace run. -/
def splitWsAux : Str → Option Str → List Str
  | [], none => [[]]
  | [], some acc => [acc.reverse]
  | c :: cs, none => if isWsChar c then splitWsAux cs none else splitWsAux cs (some [c])
  | c :: cs, some acc =>
    if isWsChar c then acc.reverse :: splitWsAux cs none
    else splitWsAux cs (some (c :: acc))

/-- `text.split(/\s+/).length`, the word count used by
`estimateStoryDuration` and `categorizeStoryDifficulty`. -/
def wordCountJS (s : Str) : Nat := (splitWsAux s (some [])).length

/-- JS `replace(/\s+/g, " ")`: collapse each whitespace run to one space. -/
def collapseWsAux : Str → Bool → Str
  | [], _ => []
  | c :: cs, inRun =>
    if isWsChar c then
      if inRun then collapseWsAux cs true else ' ' :: collapseWsAux cs true
    else c :: collapseWsAux cs false

/-- Whitespace-collapsed form of a string. -/
def collapseWs (s : Str) : Str := collapseWsAux s false

/-- A sentence-boundary character, `[.!?]`. -/
def isPunctChar (c : Char) : Bool := c == '.' || c == '!' || c == '?'

/-- `cleaned.split(/(?<=[.!?])(?=\s|$)/)`: cut after a `[.!?]` that is
followed by whitespace or by the end of the string (the end-of-string cut
yields a trailing empty piece, later discarded by the length filter). -/
def sentSplitAux : Str → Str → List Str
  | [], acc => [acc.reverse]
  | [c], acc => if isPunctChar c then [(c :: acc).reverse, []] else [(c :: acc).reverse]
  | c :: d :: cs, acc =>
    if isPunctChar c && isWsChar d then (c :: acc).reverse :: sentSplitAux (d :: cs) []
    else sentSplitAux (d :: cs) (c :: acc)

/-- The `/^\d+\.$/` test: one or more digits followed by a period. -/
def isStandaloneNumber (s : Str) : Bool :=
  !s.isEmpty && s.getLast? == some '.' && !s.dropLast.isEmpty && s.dropLast.all Char.isDigit

/-- `splitIntoSentences` of `story-retell-app.tsx` (the JSON-stories
variant): collapse whitespace, trim, split at sentence boundaries, trim each
piece, drop empty pieces and standalone numbers. -/
def splitIntoSentences (text : Str) : List Str :=
  let cleaned := trimStr (collapseWs text)
  if cleaned.isEmpty then []
  else
    (((sentSplitAux cleaned []).map trimStr).filter
        (fun t => decide (0 < t.length))).filter
      (fun t => !isStandaloneNumber t)

/-- `estimateStoryDuration` of `story-retell-app.tsx`, over the text and the
`voiceSettings.rate` it reads; the result is in milliseconds and
`wordsPerMinute` is the source's hard-coded 150. -/
def estimateStoryDuration (text : Str) (rate : ℚ) : ℚ :=
  let wordCount : ℚ := (wordCountJS text : ℚ)
  let sentenceCount : ℚ := ((splitIntoSentences text).length : ℚ)
  let pauseTime := sentenceCount * (1/2)
  let baseDurationSeconds := wordCount / 150 * 60 / rate
  let totalDurationSeconds := baseDurationSeconds + pauseTime + 2
  let minDurationSeconds := max 15 (wordCount * (3/10))
  max (totalDurationSeconds * 1000) (minDurationSeconds * 1000)

/-- Interval-timer ownership state of one mounted component: the ids of the
intervals currently scheduled in the browser (`live`), the component's
`timerRef` cell, and a counter standing for the browser's fresh-id
allocator. -/
structure TimerState where
  live : List Nat
  current : Option Nat
  next : Nat

/-- The guard both `startTimedPhase` and the expiry branch run:
`if (timerRef.current) { window.clearInterval(timerRef.current); timerRef.current = null }`. -/
def clearCurrentTimer (s : TimerState) : TimerState :=
  match s.current with
  | some t => { live := s.live.filter (fun u => !(decide (u = t))), current := none, next := s.next }
  | none => s

/-- `startTimedPhase` of `story-retell-app.tsx`, as its effect on timer
ownership: clear any prior interval, then install a fresh one and store its
id in `timerRef`. -/
def startTimedPhase (s : TimerState) : TimerState :=
  let s1 := clearCurrentTimer s
  { live := s1.live ++ [s1.next], current := some s1.next, next := s1.next + 1 }

/-- The `elapsed >= ms` branch of the interval callback: the timer clears
itself through `timerRef` before invoking `onDone`. -/
def timerExpire (s : TimerState) : TimerState := clearCurrentTimer s

/-- The unmount cleanup,
`if (timerRef.current) window.clearInterval(timerRef.current)` (the ref is
not nulled there). -/
def unmountCleanup (s : TimerState) : TimerState :=
  match s.current with
  | some t => { live := s.live.filter (fun u => !(decide (u = t))), current := s.current, next := s.next }
  | none => s

/-- The timer-relevant events a session can perform, in any order. -/
inductive TimerEvent where
  | start
  | expire
  | cleanup

/-- One event's effect on the timer state. -/
def timerStep (s : TimerState) : TimerEvent → TimerState
  | TimerEvent.start => startTimedPhase s
  | TimerEvent.expire => timerExpire s
  | TimerEvent.cleanup => unmountCleanup s

/-- Freshly mounted component: no interval scheduled, `timerRef` null. -/
def initTimerState : TimerState := { live := [], current := none, next := 0 }

/-- The timer state after an arbitrary event sequence. -/
def runTimers (evs : List TimerEvent) : TimerState := evs.foldl timerStep initTimerState

/-- The generosity curve exactly as claim C3 words it: unchanged below 0.2,
the 1.2 rescale on `[0.2, 0.4)`, the 1.3 rescale for base scores `≥ 0.4`
(including exactly 0.4). -/
def specCurveC3 (b : ℚ) : ℚ :=
  if b < 1/5 then b
  else if b < 2/5 then 1/5 + (b - 1/5) * (6/5)
  else 2/5 + (b - 2/5) * (13/10)

/-- The generosity curve as the code actually brackets it (the amended
reading of C3): unchanged up to and including 0.2, the 1.2 rescale on
`(0.2, 0.4]` — including exactly 0.4 — and the 1.3 rescale only above 0.4. -/
def specCurveC3Amended (b : ℚ) : ℚ :=
  if b ≤ 1/5 then b
  else if b ≤ 2/5 then 1/5 + (b - 1/5) * (6/5)
  else 2/5 + (b - 2/5) * (13/10)

/-- The suffix rules under claim C6's reading: return the result of the
first rule whose suffix matches and apply no further rule, else the token
unchanged. -/
def specStemFirstRule (w : Str) : Str :=
  if str "ies" <:+ w then replaceSuffix w (str "ies") (str "y")
  else if str "ied" <:+ w then replaceSuffix w (str "ied") (str "y")
  else if str "ing" <:+ w then replaceSuffix w (str "ing") []
  else if str "ed" <:+ w then replaceSuffix w (str "ed") []
  else if str "ly" <:+ w then replaceSuffix w (str "ly") []
  else if str "ness" <:+ w then replaceSuffix w (str "ness") []
  else if str "ment" <:+ w then replaceSuffix w (str "ment") []
  else if str "s" <:+ w then replaceSuffix w (str "s") []
  else w

/-- Space-join of a token list, the re-application plumbing of claim C7
(`normalize(normalize(s).join(" "))`). -/
def joinSp : List Str → Str
  | [] => []
  | [t] => t
  | t :: ts => t ++ ' ' :: joinSp ts

/-- Every character of the token lies in the tokenizer's kept class
`[a-z0-9]`. -/
def allKeep (t : Str) : Prop := ∀ c ∈ t, isKeepChar c = true

/-- Invariant of the timer state: the live intervals are exactly the one the
`timerRef` cell owns (or none), and every owned id is older than the
allocator's next id. -/
def TimerInv (s : TimerState) : Prop :=
  (s.live = [] ∨ ∃ t, s.current = some t ∧ s.live = [t])
    ∧ ∀ t, s.current = some t → t < s.next

theorem mem_insertLE {α : Type} {le : α → α → Bool} {x a : α} {l : List α} :
    a ∈ insertLE le x l ↔ a = x ∨ a ∈ l := by
  induction l with
  | nil => simp [insertLE]
  | cons y ys ih =>
    simp only [insertLE]
    split
    · simp
    · simp only [List.mem_cons, ih]
      tauto

theorem mem_sortByLE {α : Type} {le : α → α → Bool} {a : α} {l : List α} :
    a ∈ sortByLE le l ↔ a ∈ l := by
  induction l with
  | nil => simp [sortByLE]
  | cons y ys ih => simp [sortByLE, mem_insertLE, ih]

theorem count_insertLE {α : Type} [BEq α] {le : α → α → Bool} (x a : α) (l : List α) :
    (insertLE le x l).count a = (x :: l).count a := by
  induction l with
  | nil => rfl
  | cons y ys ih =>
    simp only [insertLE]
    split
    · rfl
    · simp only [List.count_cons, ih]
      omega

theorem count_sortByLE {α : Type} [BEq α] {le : α → α → Bool} (a : α) (l : List α) :
    (sortByLE le l).count a = l.count a := by
  induction l with
  | nil => rfl
  | cons y ys ih => simp only [sortByLE, count_insertLE, List.count_cons, ih]

theorem mem_sortStrs {a : Str} {l : List Str} : a ∈ sortStrs l ↔ a ∈ l := mem_sortByLE

theorem count_sortStrs (a : Str) (l : List Str) : (sortStrs l).count a = l.count a :=
  count_sortByLE a l

theorem percentageOf_bounds (f : ℚ) : 0 ≤ percentageOf f ∧ percentageOf f ≤ 100 := by
  unfold percentageOf jsRound
  constructor
  · have h0 : (0 : ℚ) ≤ min 100 (max 0 (f * 100)) := le_min (by norm_num) (le_max_left 0 _)
    exact Int.le_floor.mpr (by push_cast; linarith)
  · have h1 : min 100 (max 0 (f * 100)) ≤ 100 := min_le_left _ _
    have h2 : ⌊min 100 (max 0 (f * 100)) + 1/2⌋ < 101 := Int.floor_lt.mpr (by push_cast; linarith)
    omega

/-- C2: for arbitrary (including empty) story/transcript pairs and any
explicit keyword list, the `percentage` field returned by `computeMatchScore`
and by `computeMatchScoreWithKeywords` is an integer (it has type ℤ in this
model, produced by `Math.round`) lying in `[0, 100]`. Every record
`computeMatchScoreWithKeywords` can return is `scoreResultKOf` applied to
the loop's matched/partial lists, so the bound is stated for arbitrary such
lists. -/
theorem c2_percentage_in_range (story tr : Str) (kws matched partialMs : List Str) :
    0 ≤ (computeMatchScore story tr).percentage
    ∧ (computeMatchScore story tr).percentage ≤ 100
    ∧ 0 ≤ (scoreResultKOf story tr kws matched partialMs).percentage
    ∧ (scoreResultKOf story tr kws matched partialMs).percentage ≤ 100 :=
  ⟨(percentageOf_bounds _).1, (percentageOf_bounds _).2,
   (percentageOf_bounds _).1, (percentageOf_bounds _).2⟩

theorem friendlyCurve_eq_amended (b : ℚ) : friendlyCurve b = specCurveC3Amended b := by
  unfold friendlyCurve specCurveC3Amended
  split_ifs <;> first | rfl | linarith

/-- C3 (counterexample): the claim routes base scores of exactly 0.4 through
the 1.3 branch, but the code's comparison is strict, so a base score of
exactly 0.4 takes the 1.2 branch. At this input the explicit-keyword variant
has base score exactly 2/5 = 0.4 (4 of 7 keywords matched, no partial match,
no content overlap, no length bonus): the code reports 44 while the claim's
curve yields 40. -/
theorem c3_curve_counterexample :
    baseScoreK (str "zzz yyy xxx www kkk hhh jjj fff ddd") (str "qqq rrr ttt vvv")
        [str "qqq", str "rrr", str "ttt", str "vvv", str "aaa", str "bbb", str "ccc"]
        (matchedK (str "qqq rrr ttt vvv")
          [str "qqq", str "rrr", str "ttt", str "vvv", str "aaa", str "bbb", str "ccc"])
        (partialListK (str "qqq rrr ttt vvv")
          [str "qqq", str "rrr", str "ttt", str "vvv", str "aaa", str "bbb", str "ccc"]) = 2/5
    ∧ (computeMatchScoreWithKeywords (str "zzz yyy xxx www kkk hhh jjj fff ddd")
        (str "qqq rrr ttt vvv")
        [str "qqq", str "rrr", str "ttt", str "vvv", str "aaa", str "bbb", str "ccc"]).map
        (fun r => r.percentage)
      = some 44
    ∧ percentageOf (specCurveC3 (2/5)) = 40 := by
  with_unfolding_all decide

/-- C3 (amended): the base scores are the weighted sums the claim states
(0.6/0.2/0.2 plus length bonus for the generic variant, 0.7/0.2/0.1 plus
length bonus for the explicit-keyword variant), and the final percentage is
the base score remapped by the generosity curve — unchanged up to and
including 0.2, rescaled by 1.2 from the 0.2 breakpoint on (0.2, 0.4]
(including base score exactly 0.4), rescaled by 1.3 from the 0.4 breakpoint
only for base scores strictly above 0.4 — then clamped to [0, 100] and
rounded half-up to an integer. -/
theorem c3_score_formula_amended (story tr : Str) (kws : List Str) :
    (computeMatchScore story tr).percentage
      = percentageOf (specCurveC3Amended
          (exactMatchScoreG story tr * (3/5) + partialMatchScoreG story tr * (1/5)
            + contentWordScore story tr * (1/5) + lengthBonus story tr))
    ∧ ∀ matched partialMs : List Str,
      (scoreResultKOf story tr kws matched partialMs).percentage
        = percentageOf (specCurveC3Amended
            (exactMatchScoreK kws matched * (7/10) + partialMatchScoreK kws partialMs * (1/5)
              + contentWordScore story tr * (1/10) + lengthBonus story tr)) := by
  constructor
  · show percentageOf (friendlyCurve (baseScoreG story tr)) = _
    rw [friendlyCurve_eq_amended]
    rfl
  · intro matched partialMs
    show percentageOf (friendlyCurve (baseScoreK story tr kws matched partialMs)) = _
    rw [friendlyCurve_eq_amended]
    rfl

theorem clearCurrentTimer_next (s : TimerState) : (clearCurrentTimer s).next = s.next := by
  unfold clearCurrentTimer
  cases s.current <;> rfl

theorem clearCurrentTimer_current (s : TimerState) : (clearCurrentTimer s).current = none := by
  unfold clearCurrentTimer
  cases hc : s.current
  · exact hc
  · rfl

theorem clearCurrentTimer_live {s : TimerState} (h : TimerInv s) :
    (clearCurrentTimer s).live = [] := by
  obtain ⟨h1, _⟩ := h
  unfold clearCurrentTimer
  cases hc : s.current with
  | none =>
    rcases h1 with h1 | ⟨t, ht, _⟩
    · exact h1
    · rw [hc] at ht; cases ht
  | some t =>
    rcases h1 with h1 | ⟨u, hu, hl⟩
    · simp [h1]
    · rw [hc] at hu
      cases hu
      simp [hl]

theorem timerInv_init : TimerInv initTimerState := by
  constructor
  · left; rfl
  · intro t ht; cases ht

theorem timerInv_step {s : TimerState} (e : TimerEvent) (h : TimerInv s) :
    TimerInv (timerStep s e) := by
  cases e with
  | start =>
    refine ⟨Or.inr ⟨(clearCurrentTimer s).next, rfl, ?_⟩, ?_⟩
    · show (clearCurrentTimer s).live ++ [(clearCurrentTimer s).next] = _
      rw [clearCurrentTimer_live h]
      rfl
    · intro t ht
      cases ht
      show (clearCurrentTimer s).next < (clearCurrentTimer s).next + 1
      omega
  | expire =>
    show TimerInv (timerExpire s)
    unfold timerExpire
    refine ⟨Or.inl (clearCurrentTimer_live h), ?_⟩
    intro t ht
    rw [clearCurrentTimer_current s] at ht
    cases ht
  | cleanup =>
    obtain ⟨h1, h2⟩ := h
    show TimerInv (unmountCleanup s)
    unfold unmountCleanup
    cases hc : s.current with
    | none => exact ⟨h1, h2⟩
    | some t =>
      refine ⟨Or.inl ?_, ?_⟩
      · rcases h1 with h1 | ⟨u, hu, hl⟩
        · simp [h1]
        · rw [hc] at hu
          cases hu
          simp [hl]
      · intro u hu
        cases hu
        exact h2 t hc

theorem timerInv_run (evs : List TimerEvent) : TimerInv (runTimers evs) := by
  suffices h : ∀ s, TimerInv s → TimerInv (evs.foldl timerStep s) from h _ timerInv_init
  induction evs with
  | nil => intro s hs; exact hs
  | cons e es ih => intro s hs; exact ih _ (timerInv_step e hs)

/-- C9: after any sequence of timer events at most one interval is live, and
`startTimedPhase` always first cancels and releases the prior live interval:
immediately after a start exactly one interval is live, and whatever interval
`timerRef` owned before the start is not live afterwards. -/
theorem c9_single_live_timer (evs : List TimerEvent) :
    (runTimers evs).live.length ≤ 1
    ∧ (startTimedPhase (runTimers evs)).live.length = 1
    ∧ ∀ t, (runTimers evs).current = some t →
        t ∉ (startTimedPhase (runTimers evs)).live := by
  obtain ⟨h1, h2⟩ := timerInv_run evs
  refine ⟨?_, ?_, ?_⟩
  · rcases h1 with h1 | ⟨t, _, hl⟩
    · simp [h1]
    · simp [hl]
  · show ((clearCurrentTimer (runTimers evs)).live ++ [(clearCurrentTimer (runTimers evs)).next]).length = 1
    rw [clearCurrentTimer_live ⟨h1, h2⟩]
    rfl
  · intro t ht hmem
    have hlt : t < (runTimers evs).next := h2 t ht
    have hlive : (startTimedPhase (runTimers evs)).live
        = [(clearCurrentTimer (runTimers evs)).next] := by
      show (clearCurrentTimer (runTimers evs)).live ++ _ = _
      rw [clearCurrentTimer_live ⟨h1, h2⟩]
      rfl
    rw [hlive, clearCurrentTimer_next] at hmem
    have : t = (runTimers evs).next := by simpa using hmem
    omega

/-- Witness for C9 at the event sequence `[start]`. -/
theorem c9_single_live_timer_witness :
    (runTimers [TimerEvent.start]).current = some 0
    ∧ 0 ∉ (startTimedPhase (runTimers [TimerEvent.start])).live :=
  ⟨by decide, (c9_single_live_timer [TimerEvent.start]).2.2 0 (by decide)⟩

theorem stemmedKeywordsOf_aligned {kws : List Str}
    (hst : ∀ k ∈ processedKeywords kws, stem k ≠ []) :
    stemmedKeywordsOf kws = (processedKeywords kws).map stem := by
  unfold stemmedKeywordsOf
  apply List.filter_eq_self.mpr
  intro s hs
  obtain ⟨k, hk, hsk⟩ := List.mem_map.mp hs
  subst hsk
  have hne := hst k hk
  cases hstem : stem k
  · exact absurd hstem hne
  · rfl

theorem classifyLoopAux_aligned (uts : List Str) :
    ∀ (origs stemmeds : List Str) (i : Nat),
      (∀ j : Nat, stemmeds[i + j]? = (origs[j]?).map stem) →
      classifyLoopAux uts stemmeds origs i
        = some (origs.filter (kwMatchedK uts), origs.filter (kwPartialOnlyK uts)) := by
  intro origs
  induction origs with
  | nil => intro stemmeds i _; rfl
  | cons k ks ih =>
    intro stemmeds i h
    have hk : stemmeds[i]? = some (stem k) := by
      have h0 := h 0
      simpa using h0
    have hks : ∀ j : Nat, stemmeds[(i + 1) + j]? = (ks[j]?).map stem := by
      intro j
      have hj := h (j + 1)
      rw [show i + (j + 1) = i + 1 + j by omega] at hj
      simpa using hj
    have hrec := ih stemmeds (i + 1) hks
    simp only [classifyLoopAux, hk]
    by_cases h1 : kwHasExactMatchA uts k (some (stem k)) = true
    · have hm : kwMatchedK uts k = true := by simp [kwMatchedK, h1]
      have hp : kwPartialOnlyK uts k = false := by simp [kwPartialOnlyK, hm]
      simp [h1, hrec, List.filter_cons, hm, hp]
    · have h1f : kwHasExactMatchA uts k (some (stem k)) = false := by simpa using h1
      have hopt : optMem uts (some (stem k)) = false := (Bool.or_eq_false_iff.mp h1f).2
      cases hsub : kwSubstringTest uts k (stem k) with
      | true =>
        have hm : kwMatchedK uts k = true := by simp [kwMatchedK, h1f, hopt, hsub]
        have hp : kwPartialOnlyK uts k = false := by simp [kwPartialOnlyK, hm]
        simp [h1f, hopt, kwSubstringCheck, hsub, hrec, List.filter_cons, hm, hp]
      | false =>
        have hm : kwMatchedK uts k = false := by simp [kwMatchedK, h1f, hopt, hsub]
        by_cases ho : kwHasOverlap3 uts k = true
        · have hp : kwPartialOnlyK uts k = true := by simp [kwPartialOnlyK, hm, ho]
          simp [h1f, hopt, kwSubstringCheck, hsub, ho, hrec, List.filter_cons, hm, hp]
        · have hof : kwHasOverlap3 uts k = false := by simpa using ho
          have hp : kwPartialOnlyK uts k = false := by simp [kwPartialOnlyK, hm, hof]
          simp [h1f, hopt, kwSubstringCheck, hsub, hof, hrec, List.filter_cons, hm, hp]

theorem computeK_aligned (story tr : Str) {kws : List Str}
    (hst : ∀ k ∈ processedKeywords kws, stem k ≠ []) :
    computeMatchScoreWithKeywords story tr kws
      = some (scoreResultKOf story tr kws (matchedK tr kws) (partialListK tr kws)) := by
  unfold computeMatchScoreWithKeywords
  have hidx : ∀ j : Nat,
      (stemmedKeywordsOf kws)[0 + j]? = ((processedKeywords kws)[j]?).map stem := by
    intro j
    rw [stemmedKeywordsOf_aligned hst]
    simp
  rw [classifyLoopAux_aligned (userTokensOf tr) (processedKeywords kws)
    (stemmedKeywordsOf kws) 0 hidx]
  rfl

theorem processedKeywords_append (k1 k2 : List Str) :
    processedKeywords (k1 ++ k2) = processedKeywords k1 ++ processedKeywords k2 := by
  simp [processedKeywords]

theorem matchedK_append (tr : Str) (k1 k2 : List Str) :
    matchedK tr (k1 ++ k2) = matchedK tr k1 ++ matchedK tr k2 := by
  simp [matchedK, processedKeywords_append]

theorem partialListK_append (tr : Str) (k1 k2 : List Str) :
    partialListK tr (k1 ++ k2) = partialListK tr k1 ++ partialListK tr k2 := by
  simp [partialListK, processedKeywords_append]

theorem exactMatchScoreK_doubling (tr : Str) (kws : List Str) :
    exactMatchScoreK (kws ++ kws) (matchedK tr (kws ++ kws))
      = exactMatchScoreK kws (matchedK tr kws) := by
  unfold exactMatchScoreK
  rw [matchedK_append, processedKeywords_append]
  simp only [List.length_append]
  by_cases h : (processedKeywords kws).length = 0
  · simp [h]
  · rw [if_neg (by omega), if_neg h]
    have hq : ((processedKeywords kws).length : ℚ) ≠ 0 := Nat.cast_ne_zero.mpr h
    push_cast
    field_simp
    ring

theorem partialMatchScoreK_doubling (tr : Str) (kws : List Str) :
    partialMatchScoreK (kws ++ kws) (partialListK tr (kws ++ kws))
      = partialMatchScoreK kws (partialListK tr kws) := by
  unfold partialMatchScoreK
  rw [partialListK_append, processedKeywords_append]
  simp only [List.length_append]
  by_cases h : (processedKeywords kws).length = 0
  · simp [h]
  · rw [if_neg (by omega), if_neg h]
    have hq : ((processedKeywords kws).length : ℚ) ≠ 0 := Nat.cast_ne_zero.mpr h
    push_cast
    field_simp
    ring

/-- C10: `computeMatchScoreWithKeywords` does not deduplicate the supplied
keyword list — `totalKeywords` counts the non-empty trimmed entries with
their duplicates, a duplicated keyword is appended to `matchedKeywords` once
per occurrence (here: doubling the list doubles every keyword's multiplicity
in `matchedKeywords` and doubles `exactMatches`), and the match fractions are
taken over the duplicate-inclusive count (here: doubling the list leaves the
percentage unchanged). Stated under the hypothesis that no keyword stems to
the empty string: otherwise the `filter(Boolean)` on the stemmed array
misaligns the loop's keyword/stem pairs and the function can even throw (see
`computeMatchScoreWithKeywords`), making per-occurrence classification
depend on the index. -/
theorem c10_duplicates_kept (story tr : Str) (kws : List Str)
    (hst : ∀ k ∈ processedKeywords kws, stem k ≠ []) :
    computeMatchScoreWithKeywords story tr kws
      = some (scoreResultKOf story tr kws (matchedK tr kws) (partialListK tr kws))
    ∧ computeMatchScoreWithKeywords story tr (kws ++ kws)
      = some (scoreResultKOf story tr (kws ++ kws) (matchedK tr (kws ++ kws))
          (partialListK tr (kws ++ kws)))
    ∧ (scoreResultKOf story tr kws (matchedK tr kws) (partialListK tr kws)).totalKeywords
      = (processedKeywords kws).length
    ∧ (scoreResultKOf story tr (kws ++ kws) (matchedK tr (kws ++ kws))
        (partialListK tr (kws ++ kws))).totalKeywords
      = 2 * (scoreResultKOf story tr kws (matchedK tr kws) (partialListK tr kws)).totalKeywords
    ∧ (scoreResultKOf story tr (kws ++ kws) (matchedK tr (kws ++ kws))
        (partialListK tr (kws ++ kws))).exactMatches
      = 2 * (scoreResultKOf story tr kws (matchedK tr kws) (partialListK tr kws)).exactMatches
    ∧ (∀ k : Str,
        ((scoreResultKOf story tr (kws ++ kws) (matchedK tr (kws ++ kws))
            (partialListK tr (kws ++ kws))).matchedKeywords.count k)
          = 2 * ((scoreResultKOf story tr kws (matchedK tr kws)
              (partialListK tr kws)).matchedKeywords.count k))
    ∧ (scoreResultKOf story tr (kws ++ kws) (matchedK tr (kws ++ kws))
        (partialListK tr (kws ++ kws))).percentage
      = (scoreResultKOf story tr kws (matchedK tr kws) (partialListK tr kws)).percentage := by
  have hst2 : ∀ k ∈ processedKeywords (kws ++ kws), stem k ≠ [] := by
    intro k hk
    rw [processedKeywords_append] at hk
    rcases List.mem_append.mp hk with h | h
    · exact hst k h
    · exact hst k h
  refine ⟨computeK_aligned story tr hst, computeK_aligned story tr hst2, rfl, ?_, ?_, ?_, ?_⟩
  · show (processedKeywords (kws ++ kws)).length = 2 * (processedKeywords kws).length
    rw [processedKeywords_append, List.length_append]
    omega
  · show (matchedK tr (kws ++ kws)).length = 2 * (matchedK tr kws).length
    rw [matchedK_append, List.length_append]
    omega
  · intro k
    show (sortStrs (matchedK tr (kws ++ kws))).count k
        = 2 * (sortStrs (matchedK tr kws)).count k
    rw [count_sortStrs, count_sortStrs, matchedK_append, List.count_append]
    omega
  · show percentageOf (friendlyCurve
        (baseScoreK story tr (kws ++ kws) (matchedK tr (kws ++ kws))
          (partialListK tr (kws ++ kws))))
        = percentageOf (friendlyCurve
          (baseScoreK story tr kws (matchedK tr kws) (partialListK tr kws)))
    unfold baseScoreK
    rw [exactMatchScoreK_doubling, partialMatchScoreK_doubling]

/-- Witness for C10 at story "", transcript "dog", keywords ["dog","dog"]. -/
theorem c10_duplicates_kept_witness :
    computeMatchScoreWithKeywords (str "") (str "dog") [str "dog", str "dog"]
      = some (scoreResultKOf (str "") (str "dog") [str "dog", str "dog"]
          (matchedK (str "dog") [str "dog", str "dog"])
          (partialListK (str "dog") [str "dog", str "dog"])) :=
  (c10_duplicates_kept (str "") (str "dog") [str "dog", str "dog"] (by decide)).1

/-- C1 (counterexample): with story "abcdef" and transcript "abcdefg" the
keyword universe is `{abcdef}`, the keyword is a partial match (substring of
the transcript token), and both `matchedKeywords` and `missingKeywords` are
empty — so `matchedKeywords ∪ missingKeywords` does not contain the keyword
universe. -/
theorem c1_partition_counterexample :
    storyKeywordsOf (str "abcdef") = [str "abcdef"]
    ∧ (computeMatchScore (str "abcdef") (str "abcdefg")).matchedKeywords = []
    ∧ (computeMatchScore (str "abcdef") (str "abcdefg")).missingKeywords = []
    ∧ partialGeneric (str "abcdef") (str "abcdefg") = [str "abcdef"]
    ∧ (computeMatchScore (str "abcdef") (str "abcdefg")).totalKeywords = 1 := by
  with_unfolding_all decide

/-- C1 (amended): in both scoring functions every keyword of the universe
lands in exactly one of the three buckets — so it is
`matchedKeywords ∪ missingKeywords ∪ partialMatches` (not
`matchedKeywords ∪ missingKeywords` alone) that contains the keyword
universe; `matchedKeywords ∩ missingKeywords = ∅` and `totalKeywords` equals
the size of the universe (for the explicit-keyword variant, the length of
the trimmed non-empty keyword list, duplicates included). The
explicit-keyword conjuncts are stated over `scoreResultKOf` for arbitrary
matched/partial lists, which covers every record
`computeMatchScoreWithKeywords` can return. -/
theorem c1_partition_amended (story tr : Str) (kws : List Str) :
    (∀ k ∈ storyKeywordsOf story,
        k ∈ (computeMatchScore story tr).matchedKeywords
          ∨ k ∈ partialGeneric story tr
          ∨ k ∈ (computeMatchScore story tr).missingKeywords)
    ∧ (∀ k ∈ (computeMatchScore story tr).matchedKeywords,
        k ∉ (computeMatchScore story tr).missingKeywords)
    ∧ (computeMatchScore story tr).totalKeywords = (storyKeywordsOf story).length
    ∧ (∀ matched partialMs : List Str, ∀ k ∈ processedKeywords kws,
        k ∈ (scoreResultKOf story tr kws matched partialMs).matchedKeywords
          ∨ k ∈ (scoreResultKOf story tr kws matched partialMs).partialMatches
          ∨ k ∈ (scoreResultKOf story tr kws matched partialMs).missingKeywords)
    ∧ (∀ matched partialMs : List Str,
        ∀ k ∈ (scoreResultKOf story tr kws matched partialMs).matchedKeywords,
          k ∉ (scoreResultKOf story tr kws matched partialMs).missingKeywords)
    ∧ (∀ matched partialMs : List Str,
        (scoreResultKOf story tr kws matched partialMs).totalKeywords
          = (processedKeywords kws).length) := by
  refine ⟨?_, ?_, rfl, ?_, ?_, fun _ _ => rfl⟩
  · intro k hk
    by_cases hm : k ∈ userTokensOf tr
    · left
      show k ∈ sortStrs (matchedGeneric story tr)
      rw [mem_sortStrs]
      exact List.mem_filter.mpr ⟨hk, by simp [hm]⟩
    · by_cases hp : hasSubstringGeneric (userTokensOf tr) k = true
      · right; left
        exact List.mem_filter.mpr ⟨hk, by simp [hm, hp]⟩
      · right; right
        show k ∈ sortStrs (missingGeneric story tr)
        rw [mem_sortStrs]
        refine List.mem_filter.mpr ⟨hk, ?_⟩
        have hnp : k ∉ partialGeneric story tr := by
          intro hkp
          have := (List.mem_filter.mp hkp).2
          simp only [Bool.and_eq_true, Bool.not_eq_true', decide_eq_false_iff_not] at this
          exact hp this.2
        simp [hm, hnp]
  · intro k hk hk2
    have h1 : k ∈ userTokensOf tr := by
      have := (List.mem_filter.mp (mem_sortStrs.mp hk)).2
      simpa using this
    have h2 : k ∉ userTokensOf tr := by
      have := (List.mem_filter.mp (mem_sortStrs.mp hk2)).2
      simp only [Bool.and_eq_true, Bool.not_eq_true', decide_eq_false_iff_not] at this
      exact this.1
    exact h2 h1
  · intro matched partialMs k hk
    by_cases hm : k ∈ matched
    · left
      show k ∈ sortStrs matched
      rw [mem_sortStrs]
      exact hm
    · by_cases hp : k ∈ partialMs
      · right; left
        show k ∈ sortStrs partialMs
        rw [mem_sortStrs]
        exact hp
      · right; right
        show k ∈ sortStrs (missingOf kws matched partialMs)
        rw [mem_sortStrs]
        refine List.mem_filter.mpr ⟨hk, ?_⟩
        simp [hm, hp]
  · intro matched partialMs k hk hk2
    have h1 : k ∈ matched := mem_sortStrs.mp hk
    have h2 := (List.mem_filter.mp (mem_sortStrs.mp hk2)).2
    simp only [Bool.and_eq_true, Bool.not_eq_true', decide_eq_false_iff_not] at h2
    exact h2.1 h1

/-- Witness for C1 (amended) at story "abcdef", transcript "abcdefg". -/
theorem c1_partition_amended_witness :
    str "abcdef" ∈ storyKeywordsOf (str "abcdef")
    ∧ (str "abcdef" ∈ (computeMatchScore (str "abcdef") (str "abcdefg")).matchedKeywords
        ∨ str "abcdef" ∈ partialGeneric (str "abcdef") (str "abcdefg")
        ∨ str "abcdef" ∈ (computeMatchScore (str "abcdef") (str "abcdefg")).missingKeywords) :=
  ⟨by with_unfolding_all decide,
   (c1_partition_amended (str "abcdef") (str "abcdefg") []).1 (str "abcdef")
     (by with_unfolding_all decide)⟩

/-- C4 (counterexample): keyword "abc" does not exactly match the transcript
"abcd", it is a substring of the transcript token, and the code classifies it
as a full match (`matchedKeywords = ["abc"]`, `partialMatches = []`), not as
a partial match as the claim states. -/
theorem c4_substring_counterexample :
    kwHasExactMatchA (userTokensOf (str "abcd")) (str "abc") (some (stem (str "abc"))) = false
    ∧ kwSubstringTest (userTokensOf (str "abcd")) (str "abc") (stem (str "abc")) = true
    ∧ (computeMatchScoreWithKeywords (str "zzz") (str "abcd") [str "abc"]).map
        (fun r => r.matchedKeywords)
      = some [str "abc"]
    ∧ (computeMatchScoreWithKeywords (str "zzz") (str "abcd") [str "abc"]).map
        (fun r => r.partialMatches)
      = some [] := by
  with_unfolding_all decide

/-- C4 (amended): in `computeMatchScoreWithKeywords` a keyword that does not
exactly match but stands in a mutual-substring relation with some transcript
token is classified as a FULL match (it lands in `matchedKeywords`, not in
the partial bucket); only a keyword with no exact and no substring match
whose longest common contiguous substring with some transcript token has
length ≥ 3 is classified as a partial match (in `partialMatches`, in neither
`matchedKeywords` nor `missingKeywords`). Stated under the hypothesis that
no keyword stems to the empty string, which keeps the stemmed array aligned
with the keyword list (see `computeMatchScoreWithKeywords`). -/
theorem c4_substring_classification_amended (story tr : Str) (kws : List Str) (k : Str)
    (hst : ∀ k2 ∈ processedKeywords kws, stem k2 ≠ [])
    (hk : k ∈ processedKeywords kws) :
    computeMatchScoreWithKeywords story tr kws
      = some (scoreResultKOf story tr kws (matchedK tr kws) (partialListK tr kws))
    ∧ (kwHasExactMatchA (userTokensOf tr) k (some (stem k)) = false →
      kwSubstringTest (userTokensOf tr) k (stem k) = true →
        k ∈ (scoreResultKOf story tr kws (matchedK tr kws)
              (partialListK tr kws)).matchedKeywords
          ∧ k ∉ (scoreResultKOf story tr kws (matchedK tr kws)
              (partialListK tr kws)).partialMatches)
    ∧ (kwHasExactMatchA (userTokensOf tr) k (some (stem k)) = false →
      kwSubstringTest (userTokensOf tr) k (stem k) = false →
      kwHasOverlap3 (userTokensOf tr) k = true →
        k ∈ (scoreResultKOf story tr kws (matchedK tr kws)
              (partialListK tr kws)).partialMatches
          ∧ k ∉ (scoreResultKOf story tr kws (matchedK tr kws)
              (partialListK tr kws)).matchedKeywords
          ∧ k ∉ (scoreResultKOf story tr kws (matchedK tr kws)
              (partialListK tr kws)).missingKeywords) := by
  refine ⟨computeK_aligned story tr hst, ?_, ?_⟩
  · intro hex hsub
    have hopt : optMem (userTokensOf tr) (some (stem k)) = false :=
      (Bool.or_eq_false_iff.mp hex).2
    have hm : kwMatchedK (userTokensOf tr) k = true := by
      simp [kwMatchedK, hex, hopt, hsub]
    constructor
    · show k ∈ sortStrs (matchedK tr kws)
      rw [mem_sortStrs]
      exact List.mem_filter.mpr ⟨hk, hm⟩
    · intro hc
      have := (List.mem_filter.mp (mem_sortStrs.mp hc)).2
      simp only [kwPartialOnlyK, Bool.and_eq_true, Bool.not_eq_true'] at this
      rw [hm] at this
      cases this.1
  · intro hex hsub ho
    have hopt : optMem (userTokensOf tr) (some (stem k)) = false :=
      (Bool.or_eq_false_iff.mp hex).2
    have hm : kwMatchedK (userTokensOf tr) k = false := by
      simp [kwMatchedK, hex, hopt, hsub]
    have hpo : kwPartialOnlyK (userTokensOf tr) k = true := by
      simp [kwPartialOnlyK, hm, ho]
    have hpmem : k ∈ partialListK tr kws := List.mem_filter.mpr ⟨hk, hpo⟩
    refine ⟨?_, ?_, ?_⟩
    · show k ∈ sortStrs (partialListK tr kws)
      rw [mem_sortStrs]
      exact hpmem
    · intro hc
      have := (List.mem_filter.mp (mem_sortStrs.mp hc)).2
      rw [hm] at this
      cases this
    · intro hc
      have := (List.mem_filter.mp (mem_sortStrs.mp hc)).2
      simp only [Bool.and_eq_true, Bool.not_eq_true', decide_eq_false_iff_not] at this
      exact this.2 hpmem

/-- Witness for C4 (amended): keyword "abc" (substring case) and keyword
"xabcx" (3-character-overlap case) against transcript "abcd". -/
theorem c4_substring_classification_witness :
    (str "abc" ∈ (scoreResultKOf (str "zzz") (str "abcd") [str "abc", str "xabcx"]
          (matchedK (str "abcd") [str "abc", str "xabcx"])
          (partialListK (str "abcd") [str "abc", str "xabcx"])).matchedKeywords
      ∧ str "abc" ∉ (scoreResultKOf (str "zzz") (str "abcd") [str "abc", str "xabcx"]
          (matchedK (str "abcd") [str "abc", str "xabcx"])
          (partialListK (str "abcd") [str "abc", str "xabcx"])).partialMatches)
    ∧ (str "xabcx" ∈ (scoreResultKOf (str "zzz") (str "abcd") [str "abc", str "xabcx"]
          (matchedK (str "abcd") [str "abc", str "xabcx"])
          (partialListK (str "abcd") [str "abc", str "xabcx"])).partialMatches
      ∧ str "xabcx" ∉ (scoreResultKOf (str "zzz") (str "abcd") [str "abc", str "xabcx"]
          (matchedK (str "abcd") [str "abc", str "xabcx"])
          (partialListK (str "abcd") [str "abc", str "xabcx"])).matchedKeywords
      ∧ str "xabcx" ∉ (scoreResultKOf (str "zzz") (str "abcd") [str "abc", str "xabcx"]
          (matchedK (str "abcd") [str "abc", str "xabcx"])
          (partialListK (str "abcd") [str "abc", str "xabcx"])).missingKeywords) :=
  ⟨(c4_substring_classification_amended (str "zzz") (str "abcd")
      [str "abc", str "xabcx"] (str "abc") (by decide) (by decide)).2.1
      (by decide) (by decide),
   (c4_substring_classification_amended (str "zzz") (str "abcd")
      [str "abc", str "xabcx"] (str "xabcx") (by decide) (by decide)).2.2
      (by decide) (by decide) (by decide)⟩

theorem storyMeaningful_eq_normalize (s : Str) : storyMeaningfulWords s = normalize s := by
  unfold storyMeaningfulWords
  apply List.filter_eq_self.mpr
  intro t ht
  unfold normalize at ht
  have h := (List.mem_filter.mp ht).2
  simp only [Bool.and_eq_true] at h
  exact h.2

theorem extractKeywords_of_nil {s : Str} (h : normalize s = []) (mx : Nat) :
    extractKeywords s mx = [] := by
  simp [extractKeywords, h, buildFreq, sortByLE]

/-- C5 (counterexample): with an empty story the meaningful-word list is
empty, yet for the non-empty transcript "hello" the code computes
`lengthRatio = Math.min(1, 1/0) = 1` (not 0 as the claim states), a length
bonus of 0.1, and a percentage of 10% (not a 0% boundary score). -/
theorem c5_empty_story_counterexample :
    storyMeaningfulWords (str "") = []
    ∧ lengthRatio (str "") (str "hello") = some 1
    ∧ lengthBonus (str "") (str "hello") = 1/10
    ∧ (computeMatchScore (str "") (str "hello")).percentage = 10 := by
  with_unfolding_all decide

/-- C5 (amended): when the story's non-stopword token list is empty, both
scoring functions compute `contentWordScore = 0` and every term referencing
`universeSize` as 0 when `universeSize = 0`; but `lengthRatio` is 0 only in
the sense that the bonus vanishes when the transcript is also empty — for a
non-empty transcript the JS division by zero makes
`lengthRatio = min(1, Infinity) = 1`, the bonus is 0.1, and the percentage is
10 rather than 0. The fully-degenerate case (empty transcript too) does
resolve to 0%. -/
theorem c5_empty_story_amended (story tr : Str) (kws : List Str)
    (h : storyMeaningfulWords story = []) :
    contentWordScore story tr = 0
    ∧ lengthBonus story tr = (if (userMeaningfulWords tr).length = 0 then 0 else 1/10)
    ∧ exactMatchScoreG story tr = 0
    ∧ partialMatchScoreG story tr = 0
    ∧ (computeMatchScore story tr).totalKeywords = 0
    ∧ (computeMatchScore story tr).percentage
        = (if (userMeaningfulWords tr).length = 0 then 0 else 10)
    ∧ (processedKeywords kws = [] →
        computeMatchScoreWithKeywords story tr kws
          = some (scoreResultKOf story tr kws [] [])
        ∧ (scoreResultKOf story tr kws [] []).percentage
          = (if (userMeaningfulWords tr).length = 0 then 0 else 10)) := by
  have hn : normalize story = [] := by rw [← storyMeaningful_eq_normalize]; exact h
  have hcs : storyContentSet story = [] := by
    unfold storyContentSet
    rw [h]
    rfl
  have hkw : storyKeywordsOf story = [] := by
    unfold storyKeywordsOf
    rw [extractKeywords_of_nil hn]
    rfl
  have hcontent : contentWordScore story tr = 0 := by
    unfold contentWordScore
    rw [hcs]
    rfl
  have hbonus : lengthBonus story tr
      = (if (userMeaningfulWords tr).length = 0 then 0 else 1/10) := by
    unfold lengthBonus lengthRatio
    by_cases hu : (userMeaningfulWords tr).length = 0
    · simp [h, hu]
    · simp only [h, List.length_nil, if_pos rfl, if_neg hu]
      norm_num
  have hexact : exactMatchScoreG story tr = 0 := by
    unfold exactMatchScoreG
    rw [hkw]
    rfl
  have hpart : partialMatchScoreG story tr = 0 := by
    unfold partialMatchScoreG
    rw [hkw]
    rfl
  have e0 : percentageOf (friendlyCurve 0) = 0 := by with_unfolding_all decide
  have e1 : percentageOf (friendlyCurve (1/10)) = 10 := by with_unfolding_all decide
  have hbase : baseScoreG story tr
      = (if (userMeaningfulWords tr).length = 0 then (0 : ℚ) else 1/10) := by
    unfold baseScoreG
    rw [hexact, hpart, hcontent, hbonus]
    by_cases hu : (userMeaningfulWords tr).length = 0 <;> simp [hu]
  refine ⟨hcontent, hbonus, hexact, hpart, ?_, ?_, ?_⟩
  · show (storyKeywordsOf story).length = 0
    rw [hkw]
    rfl
  · show percentageOf (friendlyCurve (baseScoreG story tr)) = _
    rw [hbase]
    by_cases hu : (userMeaningfulWords tr).length = 0
    · simp only [if_pos hu]
      exact e0
    · simp only [if_neg hu]
      exact e1
  · intro hpk
    have hloop : computeMatchScoreWithKeywords story tr kws
        = some (scoreResultKOf story tr kws [] []) := by
      unfold computeMatchScoreWithKeywords
      rw [hpk]
      rfl
    refine ⟨hloop, ?_⟩
    have hek : exactMatchScoreK kws ([] : List Str) = 0 := by
      unfold exactMatchScoreK
      simp [hpk]
    have hpk2 : partialMatchScoreK kws ([] : List Str) = 0 := by
      unfold partialMatchScoreK
      simp [hpk]
    have hbaseK : baseScoreK story tr kws [] []
        = (if (userMeaningfulWords tr).length = 0 then (0 : ℚ) else 1/10) := by
      unfold baseScoreK
      rw [hek, hpk2, hcontent, hbonus]
      by_cases hu : (userMeaningfulWords tr).length = 0 <;> simp [hu]
    show percentageOf (friendlyCurve (baseScoreK story tr kws [] [])) = _
    rw [hbaseK]
    by_cases hu : (userMeaningfulWords tr).length = 0
    · simp only [if_pos hu]
      exact e0
    · simp only [if_neg hu]
      exact e1

/-- Witness for C5 (amended) at story "", transcript "hello", keywords []. -/
theorem c5_empty_story_witness :
    storyMeaningfulWords (str "") = []
    ∧ (computeMatchScore (str "") (str "hello")).percentage
        = (if (userMeaningfulWords (str "hello")).length = 0 then 0 else 10) :=
  ⟨by decide, (c5_empty_story_amended (str "") (str "hello") [] (by decide)).2.2.2.2.2.1⟩

/-- C6 (counterexample): the suffix rules are not first-match-only — "flies"
(no irregular entry) is rewritten by the "-ies" rule to "fly" and then again
by the trailing "-ly" strip to "f", where first-match semantics would stop at
"fly"; and `stem("riding")` is "ride" via the irregular table, not "rid" via
"-ing" removal as the claim states. -/
theorem c6_stem_counterexample :
    List.lookup (str "flies") irregularsTable = none
    ∧ stem (str "flies") = str "f"
    ∧ specStemFirstRule (str "flies") = str "fly"
    ∧ stem (str "riding") = str "ride" := by
  decide

/-- C6 (amended): for a token with no irregular-table entry, `stem` applies
the suffix `replace` steps in sequence — each rewriting the running result
when its suffix matches, so one token can be altered by several rules
("flies" becomes "f") — and `stem("riding") = "ride"` through the irregular
table, not "rid" through "-ing" removal. -/
theorem c6_stem_amended :
    (∀ t : Str, List.lookup (toLowerStr t) irregularsTable = none →
        stem t = stemSuffixRules (toLowerStr t))
    ∧ stem (str "flies") = str "f"
    ∧ stem (str "riding") = str "ride" := by
  refine ⟨fun t ht => ?_, by decide, by decide⟩
  simp only [stem, ht]

/-- Witness for C6 (amended) at the token "flies". -/
theorem c6_stem_witness :
    stem (str "flies") = stemSuffixRules (toLowerStr (str "flies")) :=
  c6_stem_amended.1 (str "flies") (by decide)

theorem toLower_keep {c : Char} (h : isKeepChar c = true) : c.toLower = c := by
  simp only [isKeepChar, decide_eq_true_eq] at h
  simp only [Char.toLower]
  rw [if_neg]
  omega

theorem classifyChar_keep {c : Char} (h : isKeepChar c = true) : classifyChar c = some c := by
  simp only [classifyChar, toLower_keep h]
  rw [if_pos h]

theorem classifyChar_some {c lc : Char} (h : classifyChar c = some lc) :
    isKeepChar lc = true := by
  simp only [classifyChar] at h
  split at h
  · next hk =>
    cases h
    exact hk
  · cases h

theorem tokenizeAux_keep_prefix :
    ∀ t rest acc : Str, allKeep t →
      tokenizeAux (t ++ rest) acc = tokenizeAux rest (t.reverse ++ acc) := by
  intro t
  induction t with
  | nil => intro rest acc _; simp
  | cons c cs ih =>
    intro rest acc ht
    have hc : isKeepChar c = true := ht c (by simp)
    have hcs : allKeep cs := fun d hd => ht d (by simp [hd])
    simp only [List.cons_append, tokenizeAux, classifyChar_keep hc]
    refine (ih rest (c :: acc) hcs).trans ?_
    simp

theorem tokenizeAux_members :
    ∀ s acc : Str, (∀ c ∈ acc, isKeepChar c = true) →
      ∀ t ∈ tokenizeAux s acc, t ≠ [] ∧ allKeep t := by
  intro s
  induction s with
  | nil =>
    intro acc hacc t ht
    simp only [tokenizeAux] at ht
    split at ht
    · cases ht
    · next hne =>
      have : t = acc.reverse := by simpa using ht
      subst this
      refine ⟨by simpa using hne, fun c hc => hacc c (by simpa using hc)⟩
  | cons c cs ih =>
    intro acc hacc t ht
    cases hc : classifyChar c with
    | some lc =>
      simp only [tokenizeAux, hc] at ht
      refine ih (lc :: acc) ?_ t ht
      intro d hd
      rcases List.mem_cons.mp hd with h | h
      · subst h; exact classifyChar_some hc
      · exact hacc d h
    | none =>
      simp only [tokenizeAux, hc] at ht
      split at ht
      · exact ih [] (by simp) t ht
      · next hne =>
        rcases List.mem_cons.mp ht with h | h
        · subst h
          refine ⟨by simpa using hne, fun d hd => hacc d (by simpa using hd)⟩
        · exact ih [] (by simp) t h

theorem tokenize_joinSp :
    ∀ ts : List Str, (∀ t ∈ ts, t ≠ [] ∧ allKeep t) → tokenize (joinSp ts) = ts := by
  intro ts
  induction ts with
  | nil => intro _; rfl
  | cons t rest ih =>
    intro h
    obtain ⟨htne, htk⟩ := h t (by simp)
    cases rest with
    | nil =>
      show tokenizeAux (joinSp [t]) [] = [t]
      have hj : joinSp [t] = t := rfl
      rw [hj, show t = t ++ ([] : Str) from (List.append_nil t).symm,
        tokenizeAux_keep_prefix t [] [] htk]
      simp only [tokenizeAux, List.append_nil]
      rw [if_neg (by simpa using htne)]
      simp
    | cons t2 rest2 =>
      show tokenizeAux (joinSp (t :: t2 :: rest2)) [] = t :: t2 :: rest2
      have hj : joinSp (t :: t2 :: rest2) = t ++ ' ' :: joinSp (t2 :: rest2) := rfl
      rw [hj, tokenizeAux_keep_prefix t (' ' :: joinSp (t2 :: rest2)) [] htk]
      have hsp : classifyChar ' ' = none := by decide
      simp only [List.append_nil, tokenizeAux, hsp]
      rw [if_neg (by simpa using htne)]
      simp only [List.reverse_reverse]
      congr 1
      exact ih (fun u hu => h u (by simp [hu]))

theorem map_eq_self_of {α : Type} {f : α → α} :
    ∀ {l : List α}, (∀ a ∈ l, f a = a) → l.map f = l := by
  intro l
  induction l with
  | nil => intro _; rfl
  | cons a as ih =>
    intro h
    simp only [List.map_cons, h a (by simp), ih (fun b hb => h b (by simp [hb]))]

theorem allKeep_take {w : Str} (hw : allKeep w) (n : Nat) : allKeep (w.take n) :=
  fun c hc => hw c (List.take_subset n w hc)

theorem replaceSuffix_keep {w suf rep : Str} (hw : allKeep w) (hrep : allKeep rep) :
    allKeep (replaceSuffix w suf rep) := by
  unfold replaceSuffix
  split
  · intro c hc
    rcases List.mem_append.mp hc with h | h
    · exact allKeep_take hw _ c h
    · exact hrep c h
  · exact hw

theorem stemSuffixRules_keep {w : Str} (hw : allKeep w) : allKeep (stemSuffixRules w) := by
  have hy : allKeep (str "y") := by
    show ∀ c ∈ str "y", isKeepChar c = true
    decide
  have h0 : allKeep ([] : Str) := fun c hc => absurd hc (List.not_mem_nil c)
  have h4 : allKeep (replaceSuffix (replaceSuffix (replaceSuffix
      (replaceSuffix w (str "ies") (str "y")) (str "ied") (str "y")) (str "ing") [])
      (str "ed") []) :=
    replaceSuffix_keep (replaceSuffix_keep (replaceSuffix_keep
      (replaceSuffix_keep hw hy) hy) h0) h0
  simp only [stemSuffixRules]
  split
  · exact replaceSuffix_keep h4 h0
  · split
    · exact replaceSuffix_keep h4 h0
    · split
      · exact replaceSuffix_keep h4 h0
      · exact replaceSuffix_keep h4 h0

theorem irregularsTable_values_keep : ∀ p ∈ irregularsTable, allKeep p.2 := by
  show ∀ p ∈ irregularsTable, ∀ c ∈ p.2, isKeepChar c = true
  decide

theorem lookup_mem {α β : Type} [BEq α] {l : List (α × β)} {a : α} {b : β}
    (h : List.lookup a l = none ∨ List.lookup a l = some b) :
    List.lookup a l = none ∨ ∃ p ∈ l, p.2 = b := by
  induction l with
  | nil => exact Or.inl rfl
  | cons p ps ih =>
    obtain ⟨k, v⟩ := p
    rcases h with h | h
    · exact Or.inl h
    · simp only [List.lookup] at h
      split at h
      · cases h
        exact Or.inr ⟨(k, b), by simp, rfl⟩
      · rcases ih (Or.inr h) with h2 | ⟨q, hq, hb⟩
        · rw [h] at h2
          cases h2
        · exact Or.inr ⟨q, by simp [hq], hb⟩

theorem toLowerStr_keep {t : Str} (h : allKeep t) : toLowerStr t = t :=
  map_eq_self_of (fun c hc => toLower_keep (h c hc))

theorem stem_keep {t : Str} (h : allKeep t) : allKeep (stem t) := by
  simp only [stem, toLowerStr_keep h]
  cases hl : List.lookup t irregularsTable with
  | some v =>
    simp only [hl]
    rcases lookup_mem (Or.inr hl) with h2 | ⟨p, hp, hv⟩
    · rw [hl] at h2
      cases h2
    · rw [← hv]
      exact irregularsTable_values_keep p hp
  | none =>
    simp only [hl]
    exact stemSuffixRules_keep h

theorem normalize_members {s t : Str} (h : t ∈ normalize s) :
    t ≠ [] ∧ allKeep t ∧ t ∉ STOPWORDS := by
  unfold normalize at h
  obtain ⟨hmem, hcond⟩ := List.mem_filter.mp h
  obtain ⟨u, hu, hst⟩ := List.mem_map.mp hmem
  simp only [Bool.and_eq_true, Bool.not_eq_true', decide_eq_false_iff_not] at hcond
  refine ⟨?_, ?_, ?_⟩
  · intro hnil
    rw [hnil] at hcond
    simp at hcond
  · subst hst
    exact stem_keep (tokenizeAux_members s [] (by simp) u hu).2
  · exact hcond.2

/-- C7 (counterexample): `normalize` is not idempotent — `normalize("ss")` is
`["s"]` (the trailing "s" strip), but re-normalizing the joined output "s"
strips again to the empty token, which is dropped, so the second pass yields
`[]`. -/
theorem c7_idempotence_counterexample :
    normalize (str "ss") = [str "s"]
    ∧ joinSp (normalize (str "ss")) = str "s"
    ∧ normalize (joinSp (normalize (str "ss"))) = []
    ∧ normalize (joinSp (normalize (str "ss"))) ≠ normalize (str "ss") := by
  decide

theorem eq_of_map_eq_self {α : Type} {f : α → α} :
    ∀ {l : List α}, l.map f = l → ∀ a ∈ l, f a = a := by
  intro l
  induction l with
  | nil => intro _ a ha; cases ha
  | cons x xs ih =>
    intro h a ha
    rw [List.map_cons, List.cons.injEq] at h
    rcases List.mem_cons.mp ha with rfl | ha2
    · exact h.1
    · exact ih h.2 a ha2

/-- C7 (amended): `normalize` is a deterministic pure function, and
re-applying it to the space-join of its own output reproduces the output
PRECISELY WHEN every output token is a fixed point of `stem` (both
directions of the biconditional): stemming an already-stemmed token can
strip again (see the counterexample), so unconditional idempotence fails,
and conversely a reproduced output forces every token to be stem-fixed. -/
theorem c7_idempotence_amended (s : Str) :
    normalize (joinSp (normalize s)) = normalize s ↔ ∀ t ∈ normalize s, stem t = t := by
  have hmem : ∀ t ∈ normalize s, t ≠ [] ∧ allKeep t := fun t ht =>
    ⟨(normalize_members ht).1, (normalize_members ht).2.1⟩
  have h1 : tokenize (joinSp (normalize s)) = normalize s := tokenize_joinSp _ hmem
  have hform : normalize (joinSp (normalize s))
      = ((normalize s).map stem).filter
          (fun t => !t.isEmpty && !(decide (t ∈ STOPWORDS))) := by
    calc normalize (joinSp (normalize s))
        = ((tokenize (joinSp (normalize s))).map stem).filter
            (fun t => !t.isEmpty && !(decide (t ∈ STOPWORDS))) := rfl
      _ = ((normalize s).map stem).filter
            (fun t => !t.isEmpty && !(decide (t ∈ STOPWORDS))) := by rw [h1]
  constructor
  · intro h
    rw [hform] at h
    have hlen : (((normalize s).map stem).filter
          (fun t => !t.isEmpty && !(decide (t ∈ STOPWORDS)))).length
        = ((normalize s).map stem).length := by
      rw [h, List.length_map]
    have hfull : ((normalize s).map stem).filter
          (fun t => !t.isEmpty && !(decide (t ∈ STOPWORDS)))
        = (normalize s).map stem :=
      (List.filter_sublist _).eq_of_length hlen
    have hmap : (normalize s).map stem = normalize s := by rw [← hfull, h]
    exact eq_of_map_eq_self hmap
  · intro h
    rw [hform, map_eq_self_of h]
    apply List.filter_eq_self.mpr
    intro t ht
    have h2 := normalize_members ht
    have hne : t.isEmpty = false := by
      cases t
      · exact absurd rfl h2.1
      · rfl
    simp [hne, h2.2.2]

/-- Witness for C7 (amended) at the input "hello world", whose two normalized
tokens are fixed points of `stem`. -/
theorem c7_idempotence_witness :
    normalize (joinSp (normalize (str "hello world"))) = normalize (str "hello world") :=
  (c7_idempotence_amended (str "hello world")).mpr (by decide)

/-- C8 (counterexample): the estimate also depends on the sentence count
(0.5 s pause per sentence), so it is not monotone in word count alone. At
speech rate 0.5, the 11-word 11-sentence text gets 16.3 s while the 12-word
single-sentence text falls below the 15 s floor and gets only 15 s. -/
theorem c8_monotonicity_counterexample :
    wordCountJS (str "a. a. a. a. a. a. a. a. a. a. a.")
      < wordCountJS (str "b b b b b b b b b b b b.")
    ∧ estimateStoryDuration (str "b b b b b b b b b b b b.") (1/2)
      < estimateStoryDuration (str "a. a. a. a. a. a. a. a. a. a. a.") (1/2) := by
  constructor
  · decide
  · have h1 : wordCountJS (str "a. a. a. a. a. a. a. a. a. a. a.") = 11 := by decide
    have h2 : wordCountJS (str "b b b b b b b b b b b b.") = 12 := by decide
    have hs1 : (splitIntoSentences (str "a. a. a. a. a. a. a. a. a. a. a.")).length = 11 := by
      decide
    have hs2 : (splitIntoSentences (str "b b b b b b b b b b b b.")).length = 1 := by decide
    unfold estimateStoryDuration
    rw [h1, h2, hs1, hs2]
    norm_num [max_def]

/-- C8 (amended): for a fixed speech rate AND a fixed sentence count, the
estimated narration duration is monotonically non-decreasing in the word
count of the input text; with the sentence count free the property fails
(see the counterexample), because the per-sentence pause allowance also
feeds the estimate. -/
theorem c8_monotonicity_amended (t1 t2 : Str) (rate : ℚ) (hr : 0 < rate)
    (hs : (splitIntoSentences t1).length = (splitIntoSentences t2).length)
    (hw : wordCountJS t1 ≤ wordCountJS t2) :
    estimateStoryDuration t1 rate ≤ estimateStoryDuration t2 rate := by
  have hq : (wordCountJS t1 : ℚ) ≤ (wordCountJS t2 : ℚ) := by exact_mod_cast hw
  simp only [estimateStoryDuration]
  rw [hs]
  have hbase : (wordCountJS t1 : ℚ) / 150 * 60 / rate
      ≤ (wordCountJS t2 : ℚ) / 150 * 60 / rate := by gcongr
  apply max_le_max
  · have : ((wordCountJS t1 : ℚ) / 150 * 60 / rate
        + ((splitIntoSentences t2).length : ℚ) * (1/2) + 2)
        ≤ ((wordCountJS t2 : ℚ) / 150 * 60 / rate
        + ((splitIntoSentences t2).length : ℚ) * (1/2) + 2) := by linarith
    exact mul_le_mul_of_nonneg_right this (by norm_num)
  · have : max 15 ((wordCountJS t1 : ℚ) * (3/10)) ≤ max 15 ((wordCountJS t2 : ℚ) * (3/10)) :=
      max_le_max le_rfl (by linarith)
    exact mul_le_mul_of_nonneg_right this (by norm_num)

/-- Witness for C8 (amended): "a" versus "a b" (both a single sentence) at
speech rate 1. -/
theorem c8_monotonicity_witness :
    estimateStoryDuration (str "a") 1 ≤ estimateStoryDuration (str "a b") 1 :=
  c8_monotonicity_amended (str "a") (str "a b") 1 (by norm_num) (by decide) (by decide)

end StoryRetell

